import Mathlib

/-!
Shallow embedding of the collaborator-suggestion pipeline of
`src/collaborators-connector/function_app.py`.

Modelling conventions:
* Python `str` is Lean `String`; string operations are implemented on
  the underlying character lists so that they compute by kernel
  reduction.  `str.lower` maps `Char.toLower` over the characters,
  `str.strip` drops whitespace at both ends; both agree with Python on
  ASCII input.
* Python `sub in s` (substring containment) is list-infix on the
  character lists; `s.count(sub)` counts non-overlapping occurrences
  scanning from the left.
* Scores are Python floats that the program only ever combines by
  addition of small constants; they are modelled as rationals (`ℚ`),
  which is exact for every constant the program uses.
* JSON payload values are the inductive `JVal`; an absent dict key
  reads as `JVal.jnull`, mirroring `dict.get`.
* The five source adapters perform HTTP; a run of the handler is
  parametrised by the outcome of each adapter call (a candidate list,
  or the exception it raised), mirroring the `try/except` fan-out of
  `suggest_collaborators`.  An uncaught Python exception is the
  `Except.error` branch of the handler's result.
-/

/-- Python `s.lower()` (ASCII case folding, on the character list). -/
def lowerStr (s : String) : String :=
  ⟨s.toList.map Char.toLower⟩

/-- Python substring containment `sub in t` on strings. -/
def pyIn (sub t : String) : Bool :=
  decide (sub.toList <:+: t.toList)

/-- One step of Python's non-overlapping `str.count` scan.  The fuel
argument is the remaining text length, which bounds the recursion; each
step consumes at least one character and one unit of fuel, so the scan
is never cut short. -/
def pyCountAux (sub : List Char) : Nat → List Char → Nat
  | 0, _ => 0
  | _ + 1, [] => 0
  | fuel + 1, c :: rest =>
    if sub.isPrefixOf (c :: rest) then
      pyCountAux sub fuel ((c :: rest).drop sub.length) + 1
    else
      pyCountAux sub fuel rest

/-- Python `t.count(sub)`: number of non-overlapping occurrences of
`sub` in `t`, scanning left to right; `t.count("")` is `len(t) + 1`. -/
def pyCount (t sub : List Char) : Nat :=
  if sub = [] then t.length + 1 else pyCountAux sub t.length t

/-- Python `str.strip()` on a character list. -/
def trimChars (l : List Char) : List Char :=
  ((l.dropWhile Char.isWhitespace).reverse.dropWhile Char.isWhitespace).reverse

/-- Split a character list at every character satisfying `p`, keeping
empty segments (the behaviour of `re.split` on a single-character
class). -/
def splitChars (p : Char → Bool) : List Char → List (List Char)
  | [] => [[]]
  | c :: rest =>
    match splitChars p rest with
    | [] => [[]]
    | grp :: rs => if p c then [] :: grp :: rs else (c :: grp) :: rs

/-- JSON values as they appear in the request payload (floats are not
modelled; none of the verified behaviour involves a float payload). -/
inductive JVal where
  | jnull : JVal
  | jbool : Bool → JVal
  | jint : Int → JVal
  | jstr : String → JVal
  | jlist : List JVal → JVal

/-- Python truthiness of a JSON value. -/
def jTruthy : JVal → Bool
  | .jnull => false
  | .jbool b => b
  | .jint n => n ≠ 0
  | .jstr s => s ≠ ""
  | .jlist l => !l.isEmpty

/-- Python `a or b`. -/
def pyOr (a b : JVal) : JVal :=
  if jTruthy a then a else b

/-- Decimal-digit accumulator for `parseIntChars`. -/
def digitsAux : List Char → Nat → Option Nat
  | [], acc => some acc
  | c :: rest, acc =>
    if c.isDigit then digitsAux rest (acc * 10 + (c.toNat - '0'.toNat)) else none

/-- A non-empty run of decimal digits as a number. -/
def digitsToNat : List Char → Option Nat
  | [] => none
  | l => digitsAux l 0

/-- Python `int(str)`: surrounding whitespace is allowed, then an
optional sign and at least one digit. -/
def parseIntChars (l : List Char) : Option Int :=
  match trimChars l with
  | '+' :: ds => (digitsToNat ds).map Int.ofNat
  | '-' :: ds => (digitsToNat ds).map (fun n => -(n : Int))
  | ds => (digitsToNat ds).map Int.ofNat

/-- Python `int(v)`: succeeds on ints, bools and integer-shaped
strings, raises `TypeError`/`ValueError` otherwise. -/
def pyToInt : JVal → Except String Int
  | .jint n => .ok n
  | .jbool b => .ok (if b then 1 else 0)
  | .jstr s =>
    match parseIntChars s.toList with
    | some n => .ok n
    | none => .error "ValueError"
  | .jnull => .error "TypeError"
  | .jlist _ => .error "TypeError"

/-- `DEFAULT_MAX` from the source. -/
def DEFAULT_MAX : Int := 10

/-- A candidate record as built by the adapters.  The `evidence`
payload is opaque to the aggregation stage; it is modelled as a plain
string. -/
structure Candidate where
  source : String
  name : Option String
  username : Option String
  profile_url : Option String
  public_email : Option String
  blog : Option String
  location : Option String
  company : Option String
  evidence : String
  score : ℚ
deriving DecidableEq

/-- `_score_match(text, terms)` (lines 53-65): empty text scores 0;
otherwise each non-empty term contributes `+2.0` when the lowercased
text contains the lowercased term, plus `0.5` per non-overlapping
occurrence. -/
def scoreMatch (text : String) (terms : List String) : ℚ :=
  if text = "" then 0
  else
    let t := lowerStr text
    terms.foldl
      (fun score term =>
        if term = "" then score
        else
          let term' := lowerStr term
          (if pyIn term' t then score + 2 else score)
            + (pyCount t.toList term'.toList : ℚ) * (1 / 2))
      0

/-- Python `"||".join(s)` for a string `s`: the characters of `s`
interleaved with `"||"` (line 117 joins a *string*, not a tuple, so the
join iterates over its characters). -/
def pipesJoin : List Char → String
  | [] => ""
  | [c] => ⟨[c]⟩
  | c :: rest => ⟨[c]⟩ ++ "||" ++ pipesJoin rest

/-- The dedup key of line 117:
`"||".join((profile_url or "").lower() + "|" + (username or "").lower())`. -/
def dedupeKey (c : Candidate) : String :=
  pipesJoin (lowerStr (c.profile_url.getD "") ++ "|" ++ lowerStr (c.username.getD "")).toList

/-- The winner of one comparison of line 119: the newcomer replaces the
stored candidate only when its score is strictly larger
(`it.get("score", 0) > bykey[k].get("score", 0)`). -/
def pickBest (b c : Candidate) : Candidate :=
  if b.score < c.score then c else b

/-- One `bykey[k] = it` update of `_dedupe_keep_best`: if the key is
present, replace its entry by the comparison winner (dict insertion
order is preserved); otherwise append the new entry. -/
def lookupUpdate : List (String × Candidate) → String → Candidate → List (String × Candidate)
  | [], k, c => [(k, c)]
  | (k', c') :: rest, k, c =>
    if k' = k then (k', pickBest c' c) :: rest
    else (k', c') :: lookupUpdate rest k c

/-- `_dedupe_keep_best(items)` (lines 114-123): fold the items into an
insertion-ordered key table and return its values. -/
def dedupe_keep_best (items : List Candidate) : List Candidate :=
  (items.foldl (fun acc it => lookupUpdate acc (dedupeKey it) it) []).map Prod.snd

/-- Python slicing `l[:n]` for an `int` bound `n` (negative bounds
count from the end). -/
def pySliceTo {α : Type} (l : List α) (n : Int) : List α :=
  if 0 ≤ n then l.take n.toNat else l.take ((l.length : Int) + n).toNat

/-- Stable descending insertion: place `c` before the first element
whose score is `≤ c.score` (so an earlier input element stays ahead of
every later element with the same score). -/
def insertByScore (c : Candidate) : List Candidate → List Candidate
  | [] => [c]
  | x :: xs => if x.score ≤ c.score then c :: x :: xs else x :: insertByScore c xs

/-- The stable descending sort of `sorted(items, key=score,
reverse=True)`.  Python's `sorted` is a stable sort; so is this
insertion sort (proved sorted, a permutation and stable below), and a
stable sort for a fixed total preorder is extensionally unique. -/
def sortByScoreDesc : List Candidate → List Candidate
  | [] => []
  | x :: xs => insertByScore x (sortByScoreDesc xs)

/-- `_clip(items, n)` (lines 125-126). -/
def clip (items : List Candidate) (n : Int) : List Candidate :=
  pySliceTo (sortByScoreDesc items) n

/-- The stopword set of `_build_terms` (line 69). -/
def stopwords : List String :=
  ["and", "or", "for", "the", "a", "an", "to", "of", "on", "in",
   "with", "by", "from", "at", "into", "over", "under", "across"]

/-- A word character of the regex `\w`, modelled over ASCII. -/
def isWordChar (c : Char) : Bool :=
  c.isAlphanum || c = '_'

/-- `re.sub(r"[^\w\s\-+/]", " ", s)` (line 73): every character that is
not a word character, whitespace, `-`, `+` or `/` becomes a space. -/
def scrubString (s : String) : String :=
  ⟨s.toList.map (fun c =>
    if isWordChar c || c.isWhitespace || c = '-' || c = '+' || c = '/' then c else ' ')⟩

/-- `add_tokens` of `_build_terms` (lines 72-81): scrub the string,
split on whitespace, split each word on `-`, `/`, `+`, strip, and keep
the pieces of length ≥ 2 whose lowercase form is not a stopword. -/
def addTokens (s : String) : List String :=
  let words := (splitChars Char.isWhitespace (scrubString s).toList).filter (· ≠ [])
  let parts := words.flatMap (splitChars (fun c => c = '-' || c = '/' || c = '+'))
  ((parts.map (fun w => (⟨trimChars w⟩ : String))).filter
    (fun w => decide (2 ≤ w.length) && !(stopwords.contains (lowerStr w))))

/-- The synonym expansion of lines 91-102: each token is kept and its
canonical expansions are appended immediately after it. -/
def expandTerm (t : String) : List String :=
  let tl := lowerStr t
  [t]
    ++ (if tl = "llm" then ["large language model"] else [])
    ++ (if tl = "rag" then ["retrieval augmented generation"] else [])
    ++ (if tl = "geospatial" || tl = "gis" then
          ["geopandas", "openstreetmap", "osmnx", "mapbox"] else [])
    ++ (if tl = "langchain" then ["chatbot"] else [])

/-- The token sequence of `_build_terms` after scrubbing, filtering and
synonym expansion, before deduplication (lines 70-102).  Non-string
keywords are skipped by the `isinstance` check of line 87. -/
def expandedTokens (ideas : List String) (extra_keywords : List JVal) : List String :=
  (ideas.flatMap addTokens
    ++ (extra_keywords.filterMap (fun k =>
          match k with | .jstr s => some s | _ => none)).flatMap addTokens).flatMap
    expandTerm

/-- The `seen`-set deduplication loop of lines 104-111, keeping the
first occurrence of each lowercased form (the set is modelled as the
list of seen keys). -/
def dedupeByLower (seen : List String) : List String → List String
  | [] => []
  | t :: rest =>
    if seen.contains (lowerStr t) then dedupeByLower seen rest
    else t :: dedupeByLower (lowerStr t :: seen) rest

/-- `_build_terms(ideas, extra_keywords)` (lines 67-112). -/
def build_terms (ideas : List String) (extra_keywords : List JVal) : List String :=
  (dedupeByLower [] (expandedTokens ideas extra_keywords)).take 20

/-- The fields of one StackExchange user record that
`search_stackexchange_users` reads. -/
structure SEUser where
  user_id : Int
  display_name : Option String
  link : Option String
  website_url : Option String
  location : Option String
deriving DecidableEq

/-- The text blob of line 219:
`" ".join((display or "", " ".join(tag_names)))`. -/
def seText (u : SEUser) (tagNames : List String) : String :=
  String.intercalate " " [u.display_name.getD "", String.intercalate " " tagNames]

/-- The qa-site adapter's internal location boost (lines 221-222):
`+1.0` when the request location and the user's location are both
truthy and the former is a case-insensitive substring of the latter. -/
def seLocationBonus (location : Option String) (uloc : Option String) : ℚ :=
  match location, uloc with
  | some l, some ul =>
    if l ≠ "" && ul ≠ "" && pyIn (lowerStr l) (lowerStr ul) then 1 else 0
  | _, _ => 0

/-- The candidate built for one StackExchange user (lines 209-234),
parametrised by the tag names fetched by the enrichment call. -/
def mkSECandidate (u : SEUser) (tagNames : List String) (terms : List String)
    (location : Option String) : Candidate :=
  { source := "stackexchange"
    name := u.display_name
    username := some (toString u.user_id)
    profile_url := u.link
    public_email := none
    blog := u.website_url
    location := u.location
    company := none
    evidence := String.intercalate "," tagNames
    score := scoreMatch (seText u tagNames) terms + seLocationBonus location u.location }

/-- The outcome of the five adapter invocations of one request: either
the candidate list the adapter returned, or the exception message it
raised (lines 416-436 wrap each call in `try/except`). -/
structure AdapterOutcomes where
  github : Except String (List Candidate)
  stackexchange : Except String (List Candidate)
  huggingface : Except String (List Candidate)
  paperswithcode : Except String (List Candidate)
  kaggle : Except String (List Candidate)

/-- One `try: results += ... except: pass`-style arm: a failing adapter
contributes nothing. -/
def collectOk (r : Except String (List Candidate)) : List Candidate :=
  match r with
  | .ok xs => xs
  | .error _ => []

/-- The fan-out of lines 416-436: concatenate the contributions of the
non-failing adapters, in source order. -/
def gatherResults (o : AdapterOutcomes) : List Candidate :=
  collectOk o.github ++ collectOk o.stackexchange ++ collectOk o.huggingface
    ++ collectOk o.paperswithcode ++ collectOk o.kaggle

/-- The per-candidate aggregation-level location boost of lines
440-443: `+0.5` when the request location is a case-insensitive
substring of the candidate's location (absent location reads as ""). -/
def aggBoost (location : String) (c : Candidate) : Candidate :=
  if pyIn (lowerStr location) (lowerStr (c.location.getD "")) then
    { c with score := c.score + 1 / 2 }
  else c

/-- The `if location:` boost loop of lines 439-443.  A truthy
non-string location only raises (`location.lower()`) when the loop
body runs at least once. -/
def boostStep (location : JVal) (results : List Candidate) :
    Except String (List Candidate) :=
  if jTruthy location then
    match location with
    | .jstr s => .ok (results.map (aggBoost s))
    | _ => if results.isEmpty then .ok results else .error "AttributeError"
  else .ok results

/-- The request payload dictionary: each field is `none` when the key
is absent. -/
structure Payload where
  ideas : Option JVal
  keywords : Option JVal
  location : Option JVal
  max_results : Option JVal

/-- `payload.get("ideas")`. -/
def Payload.getIdeas (p : Payload) : JVal := p.ideas.getD .jnull

/-- `payload.get("keywords")`. -/
def Payload.getKeywords (p : Payload) : JVal := p.keywords.getD .jnull

/-- `payload.get("location")`. -/
def Payload.getLocation (p : Payload) : JVal := p.location.getD .jnull

/-- `payload.get("max_results")`. -/
def Payload.getMaxResults (p : Payload) : JVal := p.max_results.getD .jnull

/-- The validation of line 402:
`isinstance(ideas, list) and all(isinstance(x, str) and x.strip() for x in ideas)`.
Note that an empty list passes (`all` over an empty iterable is true). -/
def validIdeas : JVal → Bool
  | .jlist l => l.all (fun x =>
      match x with
      | .jstr s => decide (trimChars s.toList ≠ [])
      | _ => false)
  | _ => false

/-- The string members of the (validated) ideas list. -/
def ideasStrings : JVal → List String
  | .jlist l => l.filterMap (fun x => match x with | .jstr s => some s | _ => none)
  | _ => []

/-- The body of an HTTP response: either the error object of a 400, or
the success object `(candidates, meta.query_terms, meta.location)`. -/
inductive RespBody where
  | errorBody : String → RespBody
  | successBody : List Candidate → List String → JVal → RespBody

/-- An HTTP response (status code and JSON body). -/
structure HttpResp where
  status : Nat
  body : RespBody

/-- `suggest_collaborators` (lines 376-456), parametrised by the parsed
request body (`none` models a JSON parse failure) and the adapter
outcomes.  `Except.error` models an uncaught Python exception. -/
def suggest_collaborators (body : Option Payload) (o : AdapterOutcomes) :
    Except String HttpResp :=
  match body with
  | none => .ok ⟨400, .errorBody "Invalid JSON body"⟩
  | some payload =>
    if !validIdeas payload.getIdeas then
      .ok ⟨400, .errorBody "'ideas' must be a non-empty list of strings"⟩
    else
      match pyOr payload.getKeywords (.jlist []) with
      | .jlist kws =>
        let location := payload.getLocation
        match pyToInt (pyOr payload.getMaxResults (.jint DEFAULT_MAX)) with
        | .error e => .error e
        | .ok max_results =>
          let terms := build_terms (ideasStrings payload.getIdeas) kws
          let results := gatherResults o
          match boostStep location results with
          | .error e => .error e
          | .ok boosted =>
            .ok ⟨200, .successBody (clip (dedupe_keep_best boosted) max_results)
                        terms location⟩
      | _ => .ok ⟨400, .errorBody "'keywords' must be a list of strings"⟩

example : pyIn "rag" "developer tools for rag" = true := by decide
example : pyCount "developer tools for rag".toList "rag".toList = 1 := by decide
example : pyCount "aaa".toList "aa".toList = 1 := by decide
example : lowerStr "A-B c" = "a-b c" := by decide
example : splitChars (fun c => c = '-') "a--b".toList = ["a".toList, [], "b".toList] := by decide
example : build_terms ["LLM-powered RAG app"] [] =
  ["LLM", "large language model", "powered", "RAG",
   "retrieval augmented generation", "app"] := by decide


/-! ### Properties of the stable descending sort -/

theorem insertByScore_perm (c : Candidate) (l : List Candidate) :
    List.Perm (insertByScore c l) (c :: l) := by
  induction l with
  | nil => exact List.Perm.refl _
  | cons x xs ih =>
    by_cases h : x.score ≤ c.score
    · rw [insertByScore, if_pos h]
    · rw [insertByScore, if_neg h]
      exact (ih.cons x).trans (List.Perm.swap c x xs)

theorem sortByScoreDesc_perm (l : List Candidate) :
    List.Perm (sortByScoreDesc l) l := by
  induction l with
  | nil => exact List.Perm.refl _
  | cons x xs ih => exact (insertByScore_perm x _).trans (ih.cons x)

theorem insertByScore_pairwise (c : Candidate) (l : List Candidate)
    (h : l.Pairwise (fun a b => b.score ≤ a.score)) :
    (insertByScore c l).Pairwise (fun a b => b.score ≤ a.score) := by
  induction l with
  | nil => simp [insertByScore]
  | cons x xs ih =>
    rcases List.pairwise_cons.mp h with ⟨hx, hxs⟩
    by_cases hcx : x.score ≤ c.score
    · rw [insertByScore, if_pos hcx]
      refine List.pairwise_cons.mpr ⟨?_, h⟩
      intro z hz
      rcases List.mem_cons.mp hz with rfl | hz'
      · exact hcx
      · exact le_trans (hx z hz') hcx
    · rw [insertByScore, if_neg hcx]
      refine List.pairwise_cons.mpr ⟨?_, ih hxs⟩
      intro z hz
      rcases List.mem_cons.mp ((insertByScore_perm c xs).mem_iff.mp hz) with rfl | hz'
      · exact le_of_not_le hcx
      · exact hx z hz'

theorem sortByScoreDesc_pairwise (l : List Candidate) :
    (sortByScoreDesc l).Pairwise (fun a b => b.score ≤ a.score) := by
  induction l with
  | nil => simp [sortByScoreDesc]
  | cons x xs ih => exact insertByScore_pairwise x _ ih

theorem insertByScore_split (c : Candidate) (l : List Candidate) :
    ∃ l₁ l₂, l = l₁ ++ l₂ ∧ insertByScore c l = l₁ ++ c :: l₂
      ∧ ∀ z ∈ l₁, ¬ z.score ≤ c.score := by
  induction l with
  | nil => exact ⟨[], [], rfl, rfl, by simp⟩
  | cons x xs ih =>
    by_cases hcx : x.score ≤ c.score
    · exact ⟨[], x :: xs, rfl, by rw [insertByScore, if_pos hcx]; rfl, by simp⟩
    · obtain ⟨l₁, l₂, he, hi, hz⟩ := ih
      refine ⟨x :: l₁, l₂, by rw [List.cons_append, ← he], ?_, ?_⟩
      · rw [insertByScore, if_neg hcx, hi]; rfl
      · intro z hz'
        rcases List.mem_cons.mp hz' with rfl | hz''
        · exact hcx
        · exact hz z hz''

theorem sublist_insertByScore (c : Candidate) (l : List Candidate) :
    List.Sublist l (insertByScore c l) := by
  obtain ⟨l₁, l₂, he, hi, -⟩ := insertByScore_split c l
  rw [hi, he]
  exact (List.sublist_cons_self c l₂).append_left l₁

theorem sortByScoreDesc_stable (x y : Candidate) (l : List Candidate)
    (hs : x.score = y.score) (h : List.Sublist [x, y] l) :
    List.Sublist [x, y] (sortByScoreDesc l) := by
  induction l with
  | nil => cases h
  | cons a t ih =>
    cases h with
    | cons _ h' => exact (ih h').trans (sublist_insertByScore a _)
    | cons₂ _ h' =>
      obtain ⟨l₁, l₂, he, hi, hnot⟩ := insertByScore_split x (sortByScoreDesc t)
      have hy : y ∈ sortByScoreDesc t :=
        (sortByScoreDesc_perm t).mem_iff.mpr (h'.subset (List.mem_singleton_self y))
      rw [he] at hy
      rw [sortByScoreDesc, hi]
      rcases List.mem_append.mp hy with h1 | h2
      · exact absurd (le_of_eq hs.symm) (hnot y h1)
      · exact ((List.singleton_sublist.mpr h2).cons₂ x).trans
          (List.sublist_append_right l₁ (x :: l₂))

theorem pySliceTo_ofNat {α : Type} (l : List α) (n : Nat) :
    pySliceTo l (n : Int) = l.take n := by
  rw [pySliceTo, if_pos (Int.natCast_nonneg n), Int.toNat_natCast]

/-! ### Properties of `_dedupe_keep_best` -/

/-- Association lookup in the `bykey` table. -/
def lookupAssoc : List (String × Candidate) → String → Option Candidate
  | [], _ => none
  | (k', c') :: rest, k => if k' = k then some c' else lookupAssoc rest k

/-- Folding one candidate into the best-so-far of its group. -/
def bestOf (b : Option Candidate) (c : Candidate) : Option Candidate :=
  match b with
  | none => some c
  | some b' => some (pickBest b' c)

/-- The unique survivor of a group: the first candidate attaining the
group's maximal score (`none` for an empty group). -/
def firstBest (l : List Candidate) : Option Candidate :=
  l.foldl bestOf none

theorem lookupAssoc_lookupUpdate (acc : List (String × Candidate)) (k k' : String)
    (c : Candidate) :
    lookupAssoc (lookupUpdate acc k c) k' =
      if k' = k then bestOf (lookupAssoc acc k) c else lookupAssoc acc k' := by
  induction acc with
  | nil =>
    simp only [lookupUpdate, lookupAssoc]
    by_cases h : k' = k
    · subst h; rw [if_pos rfl, if_pos rfl]; rfl
    · rw [if_neg (fun hh => h hh.symm), if_neg h]
  | cons p rest ih =>
    obtain ⟨k₀, c₀⟩ := p
    simp only [lookupUpdate]
    by_cases h0 : k₀ = k
    · subst h0
      rw [if_pos rfl]
      simp only [lookupAssoc]
      by_cases h1 : k' = k₀
      · subst h1
        simp [bestOf]
      · rw [if_neg (fun hh => h1 hh.symm), if_neg h1,
          if_neg (fun hh => h1 hh.symm)]
    · rw [if_neg h0]
      simp only [lookupAssoc]
      by_cases h1 : k₀ = k'
      · have h2 : ¬ k' = k := fun hh => h0 (h1.trans hh)
        rw [if_pos h1, if_neg h2, if_pos h1]
      · rw [if_neg h1, ih]
        by_cases h2 : k' = k
        · rw [if_pos h2, if_pos h2, if_neg h0]
        · rw [if_neg h2, if_neg h2, if_neg h1]

theorem keys_lookupUpdate_mem (acc : List (String × Candidate)) (k : String)
    (c : Candidate) (h : k ∈ acc.map Prod.fst) :
    (lookupUpdate acc k c).map Prod.fst = acc.map Prod.fst := by
  induction acc with
  | nil => simp at h
  | cons p rest ih =>
    obtain ⟨k₀, c₀⟩ := p
    rw [List.map_cons] at h
    by_cases h0 : k₀ = k
    · rw [lookupUpdate, if_pos h0]; rfl
    · rw [lookupUpdate, if_neg h0]
      have hmem : k ∈ rest.map Prod.fst := by
        rcases List.mem_cons.mp h with h' | h'
        · exact absurd h'.symm h0
        · exact h'
      rw [List.map_cons, List.map_cons, ih hmem]

theorem keys_lookupUpdate_not_mem (acc : List (String × Candidate)) (k : String)
    (c : Candidate) (h : k ∉ acc.map Prod.fst) :
    (lookupUpdate acc k c).map Prod.fst = acc.map Prod.fst ++ [k] := by
  induction acc with
  | nil => rfl
  | cons p rest ih =>
    obtain ⟨k₀, c₀⟩ := p
    rw [List.map_cons] at h
    have h0 : ¬ k₀ = k := fun h' => h (h' ▸ List.mem_cons_self k₀ _)
    rw [lookupUpdate, if_neg h0]
    have hmem : k ∉ rest.map Prod.fst := fun h' => h (List.mem_cons_of_mem _ h')
    rw [List.map_cons, List.map_cons, ih hmem, List.cons_append]

theorem lookupUpdate_wf (acc : List (String × Candidate)) (c : Candidate)
    (hacc : ∀ p ∈ acc, dedupeKey p.2 = p.1) :
    ∀ p ∈ lookupUpdate acc (dedupeKey c) c, dedupeKey p.2 = p.1 := by
  induction acc with
  | nil =>
    intro p hp
    rcases List.mem_singleton.mp hp with rfl
    rfl
  | cons q rest ih =>
    obtain ⟨k₀, c₀⟩ := q
    intro p hp
    by_cases h0 : k₀ = dedupeKey c
    · rw [lookupUpdate, if_pos h0] at hp
      rcases List.mem_cons.mp hp with rfl | hp'
      · show dedupeKey (pickBest c₀ c) = k₀
        rw [pickBest]
        by_cases hs : c₀.score < c.score
        · rw [if_pos hs]; exact h0.symm
        · rw [if_neg hs]; exact hacc (k₀, c₀) (List.mem_cons_self _ _)
      · exact hacc p (List.mem_cons_of_mem _ hp')
    · rw [lookupUpdate, if_neg h0] at hp
      rcases List.mem_cons.mp hp with rfl | hp'
      · exact hacc (k₀, c₀) (List.mem_cons_self _ _)
      · exact ih (fun q hq => hacc q (List.mem_cons_of_mem _ hq)) p hp'

theorem lookupUpdate_from (acc : List (String × Candidate)) (k : String) (c : Candidate) :
    ∀ p ∈ lookupUpdate acc k c, p.2 = c ∨ p ∈ acc := by
  induction acc with
  | nil =>
    intro p hp
    rcases List.mem_singleton.mp hp with rfl
    exact Or.inl rfl
  | cons q rest ih =>
    obtain ⟨k₀, c₀⟩ := q
    intro p hp
    by_cases h0 : k₀ = k
    · rw [lookupUpdate, if_pos h0] at hp
      rcases List.mem_cons.mp hp with rfl | hp'
      · show (k₀, pickBest c₀ c).2 = c ∨ _
        rw [pickBest]
        by_cases hs : c₀.score < c.score
        · rw [if_pos hs]; exact Or.inl rfl
        · rw [if_neg hs]; exact Or.inr (List.mem_cons_self _ _)
      · exact Or.inr (List.mem_cons_of_mem _ hp')
    · rw [lookupUpdate, if_neg h0] at hp
      rcases List.mem_cons.mp hp with rfl | hp'
      · exact Or.inr (List.mem_cons_self _ _)
      · rcases ih p hp' with h | h
        · exact Or.inl h
        · exact Or.inr (List.mem_cons_of_mem _ h)

theorem table_nodup_keys (items : List Candidate) (acc : List (String × Candidate))
    (h : (acc.map Prod.fst).Nodup) :
    ((items.foldl (fun a it => lookupUpdate a (dedupeKey it) it) acc).map Prod.fst).Nodup := by
  induction items generalizing acc with
  | nil => exact h
  | cons it items ih =>
    rw [List.foldl_cons]
    apply ih
    by_cases hk : dedupeKey it ∈ acc.map Prod.fst
    · rw [keys_lookupUpdate_mem _ _ _ hk]; exact h
    · rw [keys_lookupUpdate_not_mem _ _ _ hk]
      exact h.append (List.nodup_singleton _)
        (fun a ha hmem => hk ((List.mem_singleton.mp hmem) ▸ ha))

theorem table_wf (items : List Candidate) (acc : List (String × Candidate))
    (h : ∀ p ∈ acc, dedupeKey p.2 = p.1) :
    ∀ p ∈ items.foldl (fun a it => lookupUpdate a (dedupeKey it) it) acc,
      dedupeKey p.2 = p.1 := by
  induction items generalizing acc with
  | nil => exact h
  | cons it items ih =>
    rw [List.foldl_cons]
    exact ih _ (lookupUpdate_wf acc it h)

theorem table_from (items : List Candidate) (acc : List (String × Candidate)) :
    ∀ p ∈ items.foldl (fun a it => lookupUpdate a (dedupeKey it) it) acc,
      p.2 ∈ items ∨ p ∈ acc := by
  induction items generalizing acc with
  | nil => intro p hp; exact Or.inr hp
  | cons it items ih =>
    intro p hp
    rw [List.foldl_cons] at hp
    rcases ih _ p hp with h | h
    · exact Or.inl (List.mem_cons_of_mem _ h)
    · rcases lookupUpdate_from acc (dedupeKey it) it p h with h' | h'
      · exact Or.inl (by rw [h']; exact List.mem_cons_self _ _)
      · exact Or.inr h'

theorem lookupAssoc_fold (items : List Candidate) (acc : List (String × Candidate))
    (k : String) :
    lookupAssoc (items.foldl (fun a it => lookupUpdate a (dedupeKey it) it) acc) k =
      items.foldl (fun b it => if dedupeKey it = k then bestOf b it else b)
        (lookupAssoc acc k) := by
  induction items generalizing acc with
  | nil => rfl
  | cons it items ih =>
    rw [List.foldl_cons, List.foldl_cons, ih, lookupAssoc_lookupUpdate]
    congr 1
    by_cases h : dedupeKey it = k
    · rw [if_pos h.symm, if_pos h, h]
    · rw [if_neg (fun hh => h hh.symm), if_neg h]

theorem group_fold_filter (items : List Candidate) (k : String) (b : Option Candidate) :
    items.foldl (fun b it => if dedupeKey it = k then bestOf b it else b) b =
      (items.filter (fun c => dedupeKey c = k)).foldl bestOf b := by
  induction items generalizing b with
  | nil => rfl
  | cons it items ih =>
    by_cases h : dedupeKey it = k
    · simp [List.foldl_cons, List.filter_cons, h, ih]
    · simp [List.foldl_cons, List.filter_cons, h, ih]

theorem table_filter_eq (T : List (String × Candidate)) (k : String)
    (hwf : ∀ p ∈ T, dedupeKey p.2 = p.1) (hnd : (T.map Prod.fst).Nodup) :
    (T.map Prod.snd).filter (fun c => dedupeKey c = k) = (lookupAssoc T k).toList := by
  induction T with
  | nil => rfl
  | cons p rest ih =>
    obtain ⟨k₀, c₀⟩ := p
    have hk₀ : dedupeKey c₀ = k₀ := hwf (k₀, c₀) (List.mem_cons_self _ _)
    rw [List.map_cons] at hnd
    rcases List.nodup_cons.mp hnd with ⟨hnin, hnd'⟩
    by_cases h : k₀ = k
    · subst h
      have hrest : (rest.map Prod.snd).filter (fun c => dedupeKey c = k₀) = [] := by
        rw [List.filter_eq_nil_iff]
        intro c hc
        obtain ⟨q, hq, rfl⟩ := List.mem_map.mp hc
        have hq1 : dedupeKey q.2 = q.1 := hwf q (List.mem_cons_of_mem _ hq)
        simp only [hq1, decide_eq_true_eq]
        intro heq
        apply hnin
        rw [← heq]
        exact List.mem_map.mpr ⟨q, hq, rfl⟩
      simp [List.filter_cons, hk₀, lookupAssoc, hrest]
    · have hck : ¬ dedupeKey c₀ = k := by rw [hk₀]; exact h
      simp [List.filter_cons, hck, lookupAssoc, h,
        ih (fun q hq => hwf q (List.mem_cons_of_mem _ hq)) hnd']

theorem foldl_bestOf_some (l : List Candidate) (b : Candidate) :
    l.foldl bestOf (some b) = some (l.foldl pickBest b) := by
  induction l generalizing b with
  | nil => rfl
  | cons x xs ih =>
    rw [List.foldl_cons, List.foldl_cons]
    exact ih _

theorem firstBest_cons (x : Candidate) (xs : List Candidate) :
    firstBest (x :: xs) = some (xs.foldl pickBest x) := by
  rw [firstBest, List.foldl_cons]
  exact foldl_bestOf_some xs x

theorem pickFold_mem (xs : List Candidate) : ∀ x : Candidate,
    xs.foldl pickBest x ∈ x :: xs := by
  induction xs with
  | nil => intro x; exact List.mem_singleton_self x
  | cons y ys ih =>
    intro x
    rw [List.foldl_cons]
    rcases List.mem_cons.mp (ih (pickBest x y)) with h | h
    · by_cases hs : x.score < y.score
      · rw [h, pickBest, if_pos hs]
        exact List.mem_cons_of_mem _ (List.mem_cons_self _ _)
      · rw [h, pickBest, if_neg hs]
        exact List.mem_cons_self _ _
    · exact List.mem_cons_of_mem _ (List.mem_cons_of_mem _ h)

theorem pickFold_score (xs : List Candidate) : ∀ x : Candidate,
    ∀ z ∈ x :: xs, z.score ≤ (xs.foldl pickBest x).score := by
  induction xs with
  | nil =>
    intro x z hz
    rcases List.mem_singleton.mp hz with rfl
    exact le_refl _
  | cons y ys ih =>
    intro x z hz
    rw [List.foldl_cons]
    have hx : x.score ≤ (pickBest x y).score := by
      rw [pickBest]
      by_cases hs : x.score < y.score
      · rw [if_pos hs]; exact le_of_lt hs
      · rw [if_neg hs]
    have hy : y.score ≤ (pickBest x y).score := by
      rw [pickBest]
      by_cases hs : x.score < y.score
      · rw [if_pos hs]
      · rw [if_neg hs]; exact le_of_not_lt hs
    have hhead := ih (pickBest x y) (pickBest x y) (List.mem_cons_self _ _)
    rcases List.mem_cons.mp hz with rfl | hz'
    · exact le_trans hx hhead
    · rcases List.mem_cons.mp hz' with rfl | hz''
      · exact le_trans hy hhead
      · exact ih (pickBest x y) z (List.mem_cons_of_mem _ hz'')

theorem pickFold_first (xs : List Candidate) : ∀ x : Candidate,
    ∃ l₁ l₂, x :: xs = l₁ ++ (xs.foldl pickBest x) :: l₂
      ∧ ∀ z ∈ l₁, z.score < (xs.foldl pickBest x).score := by
  induction xs with
  | nil => intro x; exact ⟨[], [], rfl, by simp⟩
  | cons y ys ih =>
    intro x
    rw [List.foldl_cons]
    obtain ⟨l₁, l₂, he, hlt⟩ := ih (pickBest x y)
    by_cases hs : x.score < y.score
    · have hp : pickBest x y = y := by rw [pickBest, if_pos hs]
      rw [hp] at he hlt ⊢
      refine ⟨x :: l₁, l₂, ?_, ?_⟩
      · rw [List.cons_append, ← he]
      · intro z hz
        rcases List.mem_cons.mp hz with rfl | hz'
        · exact lt_of_lt_of_le hs (pickFold_score ys y y (List.mem_cons_self _ _))
        · exact hlt z hz'
    · have hp : pickBest x y = x := by rw [pickBest, if_neg hs]
      rw [hp] at he hlt ⊢
      cases l₁ with
      | nil =>
        injection he with hx hys
        refine ⟨[], y :: ys, ?_, by simp⟩
        rw [List.nil_append, ← hx]
      | cons p l₁' =>
        rw [List.cons_append] at he
        injection he with hp' hys
        refine ⟨x :: y :: l₁', l₂, ?_, ?_⟩
        · rw [List.cons_append, List.cons_append]
          exact congrArg (fun t => x :: y :: t) hys
        · intro z hz
          have hxr : x.score < (ys.foldl pickBest x).score := by
            have hh := hlt p (List.mem_cons_self _ _)
            rwa [← hp'] at hh
          rcases List.mem_cons.mp hz with rfl | hz'
          · exact hxr
          · rcases List.mem_cons.mp hz' with rfl | hz''
            · exact lt_of_le_of_lt (le_of_not_lt hs) hxr
            · exact hlt z (List.mem_cons_of_mem _ hz'')

theorem firstBest_spec (l : List Candidate) (c : Candidate) (h : firstBest l = some c) :
    c ∈ l ∧ (∀ z ∈ l, z.score ≤ c.score)
      ∧ ∃ l₁ l₂, l = l₁ ++ c :: l₂ ∧ ∀ z ∈ l₁, z.score < c.score := by
  cases l with
  | nil => cases h
  | cons x xs =>
    rw [firstBest_cons] at h
    injection h with h
    subst h
    exact ⟨pickFold_mem xs x, pickFold_score xs x, pickFold_first xs x⟩

theorem dedupe_filter_key (items : List Candidate) (k : String) :
    (dedupe_keep_best items).filter (fun c => dedupeKey c = k) =
      (firstBest (items.filter (fun c => dedupeKey c = k))).toList := by
  rw [dedupe_keep_best,
    table_filter_eq _ k (table_wf items [] (by simp)) (table_nodup_keys items [] (by simp)),
    lookupAssoc_fold, firstBest, ← group_fold_filter]
  rfl

/-! ### Handler, boost and frame lemmas -/

theorem handler_success (p : Payload) (o : AdapterOutcomes) (kws : List JVal)
    (mr : Int) (boosted : List Candidate)
    (hv : validIdeas p.getIdeas = true)
    (hk : pyOr p.getKeywords (.jlist []) = .jlist kws)
    (hm : pyToInt (pyOr p.getMaxResults (.jint DEFAULT_MAX)) = .ok mr)
    (hb : boostStep p.getLocation (gatherResults o) = .ok boosted) :
    suggest_collaborators (some p) o =
      .ok ⟨200, .successBody (clip (dedupe_keep_best boosted) mr)
            (build_terms (ideasStrings p.getIdeas) kws) p.getLocation⟩ := by
  simp [suggest_collaborators, hv, hk, hm, hb]

theorem boostStep_str_ok (s : String) (hs : s ≠ "") (results : List Candidate) :
    boostStep (.jstr s) results = .ok (results.map (aggBoost s)) := by
  simp [boostStep, jTruthy, hs]

theorem aggBoost_frame (s : String) (c : Candidate) :
    aggBoost s c = { c with score := (aggBoost s c).score } := by
  rw [aggBoost]
  split
  · rfl
  · rfl

theorem mem_of_mem_clip {c : Candidate} {items : List Candidate} {n : Int}
    (h : c ∈ clip items n) : c ∈ items := by
  rw [clip, pySliceTo] at h
  split at h <;>
    exact (sortByScoreDesc_perm items).mem_iff.mp ((List.take_sublist _ _).subset h)

theorem clip_pairwise (items : List Candidate) (n : Int)
    (R : Candidate → Candidate → Prop) (hsym : ∀ ⦃a b⦄, R a b → R b a)
    (h : items.Pairwise R) : (clip items n).Pairwise R := by
  have hsort : (sortByScoreDesc items).Pairwise R :=
    ((sortByScoreDesc_perm items).pairwise_iff (fun hab => hsym hab)).mpr h
  rw [clip, pySliceTo]
  split <;> exact hsort.sublist (List.take_sublist _ _)

theorem dedupe_mem (items : List Candidate) :
    ∀ c ∈ dedupe_keep_best items, c ∈ items := by
  intro c hc
  rw [dedupe_keep_best] at hc
  obtain ⟨p, hp, rfl⟩ := List.mem_map.mp hc
  rcases table_from items [] p hp with h | h
  · exact h
  · cases h

theorem dedupe_keys_pairwise (items : List Candidate) :
    (dedupe_keep_best items).Pairwise (fun a b => dedupeKey a ≠ dedupeKey b) := by
  rw [dedupe_keep_best]
  have hnd := table_nodup_keys items [] (by simp)
  have hwf := table_wf items [] (by simp)
  rw [List.Nodup, List.pairwise_map] at hnd
  rw [List.pairwise_map]
  refine hnd.imp_of_mem ?_
  intro p q hp hq hne
  rw [← hwf p hp, ← hwf q hq] at hne
  exact hne

theorem boostStep_ok_shape (location : JVal) (results boosted : List Candidate)
    (hb : boostStep location results = .ok boosted) :
    boosted = results ∨ ∃ s, boosted = results.map (aggBoost s) := by
  unfold boostStep at hb
  split at hb
  · split at hb
    · injection hb with hb
      exact Or.inr ⟨_, hb.symm⟩
    · split at hb
      · injection hb with hb
        exact Or.inl hb.symm
      · cases hb
  · injection hb with hb
    exact Or.inl hb.symm

theorem boosted_from (location : JVal) (results boosted : List Candidate)
    (hb : boostStep location results = .ok boosted) :
    ∀ c ∈ boosted, ∃ c₀ ∈ results, c = { c₀ with score := c.score } := by
  intro c hc
  rcases boostStep_ok_shape location results boosted hb with rfl | ⟨s, rfl⟩
  · exact ⟨c, hc, rfl⟩
  · obtain ⟨c₀, hc₀, rfl⟩ := List.mem_map.mp hc
    exact ⟨c₀, hc₀, aggBoost_frame s c₀⟩

/-! ### Scorer and term-extractor lemmas -/

/-- The contribution of one term to `_score_match` on the (already
lowercased) text `t`: nothing for the empty term, otherwise `+2.0` for
containment plus `0.5` per non-overlapping occurrence. -/
def termScore (t : String) (term : String) : ℚ :=
  if term = "" then 0
  else (if pyIn (lowerStr term) t then 2 else 0)
    + (pyCount t.toList (lowerStr term).toList : ℚ) * (1 / 2)

theorem scoreMatch_foldl (t : String) (terms : List String) (acc : ℚ) :
    terms.foldl
      (fun score term =>
        if term = "" then score
        else
          (if pyIn (lowerStr term) t then score + 2 else score)
            + (pyCount t.toList (lowerStr term).toList : ℚ) * (1 / 2)) acc
      = acc + (terms.map (termScore t)).sum := by
  induction terms generalizing acc with
  | nil => simp
  | cons term terms ih =>
    rw [List.foldl_cons, ih, List.map_cons, List.sum_cons, termScore]
    by_cases h : term = ""
    · rw [if_pos h, if_pos h]
      ring
    · rw [if_neg h, if_neg h]
      by_cases hc : pyIn (lowerStr term) t = true
      · rw [if_pos hc, if_pos hc]
        ring
      · rw [if_neg hc, if_neg hc]
        ring

theorem scoreMatch_eq_sum (text : String) (terms : List String) :
    scoreMatch text terms =
      if text = "" then 0 else (terms.map (termScore (lowerStr text))).sum := by
  by_cases h : text = ""
  · rw [if_pos h]
    simp [scoreMatch, h]
  · rw [if_neg h]
    simp only [scoreMatch, if_neg h]
    rw [scoreMatch_foldl]
    exact zero_add _

theorem contains_iff_mem_str (l : List String) (a : String) :
    l.contains a = true ↔ a ∈ l :=
  List.elem_iff

theorem addTokens_ok (s : String) :
    ∀ t ∈ addTokens s, 2 ≤ t.length ∧ lowerStr t ∉ stopwords := by
  intro t ht
  simp only [addTokens] at ht
  rcases List.mem_filter.mp ht with ⟨-, hcond⟩
  simp only [Bool.and_eq_true, decide_eq_true_eq, Bool.not_eq_true'] at hcond
  obtain ⟨h1, h2⟩ := hcond
  refine ⟨h1, ?_⟩
  intro hmem
  rw [(contains_iff_mem_str _ _).mpr hmem] at h2
  cases h2

theorem expandTerm_mem (t u : String) (hu : u ∈ expandTerm t) :
    u = t ∨ u ∈ ["large language model", "retrieval augmented generation",
      "geopandas", "openstreetmap", "osmnx", "mapbox", "chatbot"] := by
  have hif : ∀ (c : Prop) (inst : Decidable c) (L : List String),
      u ∈ (@ite _ c inst L []) → u ∈ L := by
    intro c inst L h
    split at h
    · exact h
    · exact absurd h (List.not_mem_nil u)
  simp only [expandTerm, List.mem_append, List.mem_singleton] at hu
  rcases hu with (((h | h) | h) | h) | h
  · exact Or.inl h
  · right
    have := hif _ _ _ h
    simp only [List.mem_singleton] at this
    simp [this]
  · right
    have := hif _ _ _ h
    simp only [List.mem_singleton] at this
    simp [this]
  · right
    have := hif _ _ _ h
    simp only [List.mem_cons, List.mem_singleton] at this ⊢
    tauto
  · right
    have := hif _ _ _ h
    simp only [List.mem_singleton] at this
    simp [this]

theorem expandedTokens_ok (ideas : List String) (kws : List JVal) :
    ∀ u ∈ expandedTokens ideas kws, 2 ≤ u.length ∧ lowerStr u ∉ stopwords := by
  intro u hu
  rw [expandedTokens] at hu
  obtain ⟨t, ht, hu'⟩ := List.mem_flatMap.mp hu
  have htok : 2 ≤ t.length ∧ lowerStr t ∉ stopwords := by
    rcases List.mem_append.mp ht with h | h
    · obtain ⟨s, -, hts⟩ := List.mem_flatMap.mp h
      exact addTokens_ok s t hts
    · obtain ⟨s, -, hts⟩ := List.mem_flatMap.mp h
      exact addTokens_ok s t hts
  rcases expandTerm_mem t u hu' with rfl | hfix
  · exact htok
  · simp only [List.mem_cons, List.not_mem_nil, or_false] at hfix
    rcases hfix with rfl | rfl | rfl | rfl | rfl | rfl | rfl <;> decide

theorem dedupeByLower_sublist (l : List String) : ∀ seen,
    List.Sublist (dedupeByLower seen l) l := by
  induction l with
  | nil => intro seen; exact List.Sublist.refl _
  | cons t rest ih =>
    intro seen
    rw [dedupeByLower]
    by_cases h : seen.contains (lowerStr t) = true
    · rw [if_pos h]
      exact (ih seen).trans (List.sublist_cons_self t rest)
    · rw [if_neg h]
      exact (ih _).cons₂ t

theorem dedupeByLower_firstocc (l : List String) : ∀ (seen : List String) (u : String),
    u ∈ dedupeByLower seen l →
      lowerStr u ∉ seen ∧
        ∃ l₁ l₂, l = l₁ ++ u :: l₂ ∧ ∀ v ∈ l₁, lowerStr v ≠ lowerStr u := by
  induction l with
  | nil => intro seen u hu; cases hu
  | cons t rest ih =>
    intro seen u hu
    rw [dedupeByLower] at hu
    by_cases h : seen.contains (lowerStr t) = true
    · rw [if_pos h] at hu
      obtain ⟨hnse, l₁, l₂, he, hne⟩ := ih seen u hu
      refine ⟨hnse, t :: l₁, l₂, by rw [List.cons_append, he], ?_⟩
      intro v hv
      rcases List.mem_cons.mp hv with rfl | hv'
      · intro heq
        have hvmem : lowerStr v ∈ seen := (contains_iff_mem_str _ _).mp h
        exact hnse (heq ▸ hvmem)
      · exact hne v hv'
    · rw [if_neg h] at hu
      rcases List.mem_cons.mp hu with rfl | hu'
      · refine ⟨?_, [], rest, rfl, by simp⟩
        intro hmem
        exact h ((contains_iff_mem_str _ _).mpr hmem)
      · obtain ⟨hnse, l₁, l₂, he, hne⟩ := ih (lowerStr t :: seen) u hu'
        have hts : lowerStr u ∉ seen := fun hm => hnse (List.mem_cons_of_mem _ hm)
        have htu : lowerStr t ≠ lowerStr u := fun heq => hnse (heq ▸ List.mem_cons_self _ _)
        refine ⟨hts, t :: l₁, l₂, by rw [List.cons_append, he], ?_⟩
        intro v hv
        rcases List.mem_cons.mp hv with rfl | hv'
        · exact htu
        · exact hne v hv'

theorem dedupeByLower_pairwise (l : List String) : ∀ seen,
    (dedupeByLower seen l).Pairwise (fun a b => lowerStr a ≠ lowerStr b) := by
  induction l with
  | nil => intro seen; exact List.Pairwise.nil
  | cons t rest ih =>
    intro seen
    rw [dedupeByLower]
    by_cases h : seen.contains (lowerStr t) = true
    · rw [if_pos h]
      exact ih seen
    · rw [if_neg h]
      refine List.pairwise_cons.mpr ⟨?_, ih _⟩
      intro u hu
      have hns := (dedupeByLower_firstocc rest (lowerStr t :: seen) u hu).1
      exact fun heq => hns (List.mem_cons.mpr (Or.inl heq.symm))

/-! ### Concrete fixtures for witnesses and counterexamples -/

/-- A candidate fixture with the given username, profile_url, location
and score. -/
def mkCand (src : String) (u pu loc : Option String) (sc : ℚ) : Candidate :=
  { source := src, name := none, username := u, profile_url := pu,
    public_email := none, blog := none, location := loc, company := none,
    evidence := "", score := sc }

/-- All five adapters raise. -/
def oAllFail : AdapterOutcomes :=
  ⟨.error "HTTPError", .error "HTTPError", .error "HTTPError",
   .error "HTTPError", .error "HTTPError"⟩

def c1lo : Candidate := mkCand "github" (some "alice") (some "https://github.com/alice") none 3
def c1hi : Candidate := mkCand "github" (some "alice") (some "https://github.com/alice") none 5

def c2a : Candidate := mkCand "github" (some "a") none none 1
def c2b : Candidate := mkCand "github" (some "b") none none 5
def c2c : Candidate := mkCand "github" (some "c") none none 3

def c5a : Candidate := mkCand "github" (some "u1") (some "https://x.example/p") none 2
def c5b : Candidate := mkCand "github" (some "u2") (some "https://x.example/p") none 1
def o5 : AdapterOutcomes := ⟨.ok [c5a, c5b], .ok [], .ok [], .ok [], .ok []⟩

def seSofia : SEUser :=
  { user_id := 7, display_name := some "Ivana",
    link := some "https://stackoverflow.com/users/7",
    website_url := none, location := some "Sofia, Bulgaria" }

def c8x : Candidate :=
  mkCand "stackexchange" (some "7") (some "https://stackoverflow.com/users/7") none 4

def c9a : Candidate := mkCand "github" (some "aa") (some "https://g.example/a") none 5
def c9b : Candidate := mkCand "github" (some "bb") (some "https://g.example/b") none 3

def c10a : Candidate := mkCand "github" (some "zz") (some "https://g.example/z") (some "Sofia bg") 3
def p10 : Payload := ⟨some (.jlist [.jstr "ai"]), none, some (.jstr "bg"), none⟩
def o10 : AdapterOutcomes := ⟨.ok [c10a], .ok [], .ok [], .ok [], .ok []⟩

/-! ### Claim theorems -/

/-- C1: grouping candidates by the composite dedup key (lowercased
profile_url joined with lowercased username, absent fields read as ""),
exactly one candidate per non-empty group survives `_dedupe_keep_best`,
namely the first candidate attaining the group's highest score; ties
keep the candidate encountered first. -/
theorem C1_dedup_keeps_first_best (items : List Candidate) (k : String) :
    ((dedupe_keep_best items).filter (fun c => dedupeKey c = k)) =
      (firstBest (items.filter (fun c => dedupeKey c = k))).toList
    ∧ (∀ c, firstBest (items.filter (fun c => dedupeKey c = k)) = some c →
        c ∈ items.filter (fun c => dedupeKey c = k)
        ∧ (∀ x ∈ items.filter (fun c => dedupeKey c = k), x.score ≤ c.score)
        ∧ ∃ l₁ l₂, items.filter (fun c => dedupeKey c = k) = l₁ ++ c :: l₂
            ∧ ∀ x ∈ l₁, x.score < c.score) :=
  ⟨dedupe_filter_key items k, fun c hc => firstBest_spec _ c hc⟩

/-- C1 witness: of two candidates with identical profile_url and
username and scores 3.0 and 5.0, dedup keeps exactly the score-5.0
one. -/
theorem C1_dedup_keeps_first_best_witness :
    ((dedupe_keep_best [c1lo, c1hi]).filter (fun c => dedupeKey c = dedupeKey c1lo)) = [c1hi]
    ∧ dedupe_keep_best [c1lo, c1hi] = [c1hi]
    ∧ c1hi ∈ [c1lo, c1hi].filter (fun c => dedupeKey c = dedupeKey c1lo)
    ∧ c1lo.score ≤ c1hi.score := by
  have h := C1_dedup_keeps_first_best [c1lo, c1hi] (dedupeKey c1lo)
  have h2 := h.2 c1hi (by decide)
  exact ⟨h.1.trans (by decide), by decide, h2.1, h2.2.1 c1lo (by decide)⟩

/-- C2: `_clip` is the stable descending sort truncated to the first
`limit` entries — the sort is a permutation, sorted by score
descending, candidates with equal scores keep their relative input
order, and the output length is `min limit n`. -/
theorem C2_rank_and_clip (items : List Candidate) (limit : Nat) (_hpos : 0 < limit) :
    clip items (limit : Int) = (sortByScoreDesc items).take limit
    ∧ List.Perm (sortByScoreDesc items) items
    ∧ (sortByScoreDesc items).Pairwise (fun a b => b.score ≤ a.score)
    ∧ (clip items (limit : Int)).length = min limit items.length
    ∧ (∀ x y : Candidate, x.score = y.score → List.Sublist [x, y] items →
        List.Sublist [x, y] (sortByScoreDesc items)) := by
  refine ⟨by rw [clip, pySliceTo_ofNat], sortByScoreDesc_perm items,
    sortByScoreDesc_pairwise items, ?_,
    fun x y hs h => sortByScoreDesc_stable x y items hs h⟩
  rw [clip, pySliceTo_ofNat, List.length_take, (sortByScoreDesc_perm items).length_eq]

/-- C2 witness: for scores [1.0, 5.0, 3.0] and limit 2, the output is
the score-5.0 candidate then the score-3.0 candidate. -/
theorem C2_rank_and_clip_witness :
    clip [c2a, c2b, c2c] ((2 : Nat) : Int) = [c2b, c2c]
    ∧ (clip [c2a, c2b, c2c] ((2 : Nat) : Int)).length = min 2 3
    ∧ (sortByScoreDesc [c2a, c2b, c2c]).Pairwise (fun a b => b.score ≤ a.score) := by
  have h := C2_rank_and_clip [c2a, c2b, c2c] 2 (by decide)
  exact ⟨by decide, h.2.2.2.1, h.2.2.1⟩

/-- C3 (code bug): the validation of line 402 accepts an empty ideas
list (Python `all` over an empty iterable is vacuously true), so the
request `ideas = []` returns 200 with an empty candidates array instead
of the 400 required by the spec and by the code's own error message;
the other malformed shapes (absent, non-list, non-string member, blank
member) are rejected as specified. -/
theorem C3_empty_ideas_accepted :
    validIdeas (.jlist []) = true
    ∧ suggest_collaborators (some ⟨some (.jlist []), none, none, none⟩) oAllFail =
        .ok ⟨200, .successBody [] [] .jnull⟩
    ∧ validIdeas .jnull = false
    ∧ validIdeas (.jstr "not-a-list") = false
    ∧ validIdeas (.jlist [.jstr "ok", .jstr "  "]) = false
    ∧ validIdeas (.jlist [.jstr "ok", .jint 3]) = false :=
  ⟨by decide, rfl, by decide, by decide, by decide, by decide⟩

/-- C4: the qa-site adapter's internal +1.0 location bonus and the
aggregation-level +0.5 boost stack: a StackExchange candidate whose
location contains the request location case-insensitively scores
textual + 1.0 from the adapter, and the aggregation boost then adds
exactly one +0.5 to every matching candidate of any source, giving
textual + 1.5 for such a candidate. -/
theorem C4_location_boost_stacking (u : SEUser) (tags terms : List String)
    (L uloc : String) (results boosted : List Candidate)
    (hL : L ≠ "") (hu : u.location = some uloc) (huloc : uloc ≠ "")
    (hmatch : pyIn (lowerStr L) (lowerStr uloc) = true)
    (hb : boostStep (.jstr L) results = Except.ok boosted) :
    (mkSECandidate u tags terms (some L)).score = scoreMatch (seText u tags) terms + 1
    ∧ boosted = results.map (aggBoost L)
    ∧ (∀ i (hi : i < results.length) (hi' : i < boosted.length),
        boosted.get ⟨i, hi'⟩ =
          if pyIn (lowerStr L) (lowerStr ((results.get ⟨i, hi⟩).location.getD "")) = true
          then { results.get ⟨i, hi⟩ with score := (results.get ⟨i, hi⟩).score + 1 / 2 }
          else results.get ⟨i, hi⟩)
    ∧ (∀ i (hi : i < results.length) (hi' : i < boosted.length),
        results.get ⟨i, hi⟩ = mkSECandidate u tags terms (some L) →
          (boosted.get ⟨i, hi'⟩).score = scoreMatch (seText u tags) terms + 3 / 2) := by
  have h1 : (mkSECandidate u tags terms (some L)).score
      = scoreMatch (seText u tags) terms + 1 := by
    simp [mkSECandidate, seLocationBonus, hu, hL, huloc, hmatch]
  have h2 : boosted = results.map (aggBoost L) := by
    have := (boostStep_str_ok L hL results).symm.trans hb
    injection this with h
    exact h.symm
  have h3 : ∀ i (hi : i < results.length) (hi' : i < boosted.length),
      boosted.get ⟨i, hi'⟩ =
        if pyIn (lowerStr L) (lowerStr ((results.get ⟨i, hi⟩).location.getD "")) = true
        then { results.get ⟨i, hi⟩ with score := (results.get ⟨i, hi⟩).score + 1 / 2 }
        else results.get ⟨i, hi⟩ := by
    intro i hi hi'
    subst h2
    simp only [List.get_eq_getElem, List.getElem_map]
    rw [aggBoost]
  refine ⟨h1, h2, h3, ?_⟩
  intro i hi hi' hci
  rw [h3 i hi hi', hci]
  have hloc : (mkSECandidate u tags terms (some L)).location = some uloc := by
    simp [mkSECandidate, hu]
  rw [hloc]
  simp only [Option.getD_some]
  rw [if_pos hmatch]
  show (mkSECandidate u tags terms (some L)).score + 1 / 2 = _
  rw [h1]
  ring

/-- C4 witness: request location "bulgaria", user location
"Sofia, Bulgaria"; after both boosts the candidate scores its textual
score plus 1.5. -/
theorem C4_location_boost_stacking_witness :
    (([mkSECandidate seSofia ["python"] ["python"] (some "bulgaria")].map
        (aggBoost "bulgaria")).get ⟨0, by decide⟩).score
      = scoreMatch (seText seSofia ["python"]) ["python"] + 3 / 2 := by
  have h := C4_location_boost_stacking seSofia ["python"] ["python"] "bulgaria"
    "Sofia, Bulgaria" [mkSECandidate seSofia ["python"] ["python"] (some "bulgaria")]
    ([mkSECandidate seSofia ["python"] ["python"] (some "bulgaria")].map (aggBoost "bulgaria"))
    (by decide) rfl (by decide) (by decide)
    (boostStep_str_ok "bulgaria" (by decide) _)
  exact h.2.2.2 0 (by decide) (by decide) rfl

/-- C5 counterexample: two adapter candidates with the same non-empty
profile_url but different usernames have different composite dedup
keys, so both appear in the final 200 response. -/
theorem C5_counterexample_same_profile_url :
    suggest_collaborators (some ⟨some (.jlist [.jstr "ai"]), none, none, none⟩) o5 =
      .ok ⟨200, .successBody [c5a, c5b] ["ai"] .jnull⟩
    ∧ c5a.profile_url = c5b.profile_url
    ∧ c5a.profile_url ≠ some ""
    ∧ c5a.profile_url ≠ none
    ∧ c5a.username ≠ c5b.username :=
  ⟨rfl, rfl, by decide, by decide, by decide⟩

/-- C5 amended: the final candidates array contains no two entries
that agree on BOTH the lowercased profile_url and the lowercased
username (absent fields read as ""); the same non-empty profile_url
alone can appear twice under different usernames. -/
theorem C5_amended_no_duplicate_identity (p : Payload) (o : AdapterOutcomes)
    (kws : List JVal) (mr : Int) (boosted : List Candidate)
    (hv : validIdeas p.getIdeas = true)
    (hk : pyOr p.getKeywords (.jlist []) = .jlist kws)
    (hm : pyToInt (pyOr p.getMaxResults (.jint DEFAULT_MAX)) = .ok mr)
    (hb : boostStep p.getLocation (gatherResults o) = .ok boosted) :
    suggest_collaborators (some p) o =
      .ok ⟨200, .successBody (clip (dedupe_keep_best boosted) mr)
            (build_terms (ideasStrings p.getIdeas) kws) p.getLocation⟩
    ∧ (clip (dedupe_keep_best boosted) mr).Pairwise (fun a b =>
        ¬(lowerStr (a.profile_url.getD "") = lowerStr (b.profile_url.getD "")
          ∧ lowerStr (a.username.getD "") = lowerStr (b.username.getD ""))) := by
  refine ⟨handler_success p o kws mr boosted hv hk hm hb, ?_⟩
  have hpair : (dedupe_keep_best boosted).Pairwise (fun a b =>
      ¬(lowerStr (a.profile_url.getD "") = lowerStr (b.profile_url.getD "")
        ∧ lowerStr (a.username.getD "") = lowerStr (b.username.getD ""))) := by
    refine (dedupe_keys_pairwise boosted).imp ?_
    intro a b hne hab
    apply hne
    rw [dedupeKey, dedupeKey, hab.1, hab.2]
  refine clip_pairwise _ _ _ ?_ hpair
  intro a b hab h
  exact hab ⟨h.1.symm, h.2.symm⟩

/-- C5 amended witness: a concrete successful request whose final
candidate list has pairwise distinct identities. -/
theorem C5_amended_no_duplicate_identity_witness :
    suggest_collaborators (some ⟨some (.jlist [.jstr "ai"]), none, none, none⟩)
      ⟨.ok [], .ok [], .ok [], .ok [], .ok []⟩ =
      .ok ⟨200, .successBody (clip (dedupe_keep_best []) 10)
            (build_terms (ideasStrings (.jlist [.jstr "ai"])) []) .jnull⟩
    ∧ (clip (dedupe_keep_best []) 10).Pairwise (fun a b =>
        ¬(lowerStr (a.profile_url.getD "") = lowerStr (b.profile_url.getD "")
          ∧ lowerStr (a.username.getD "") = lowerStr (b.username.getD ""))) :=
  C5_amended_no_duplicate_identity ⟨some (.jlist [.jstr "ai"]), none, none, none⟩
    ⟨.ok [], .ok [], .ok [], .ok [], .ok []⟩ [] 10 [] (by decide) rfl rfl rfl

/-- C6: for all inputs, the term list has at most 20 entries, contains
no stopword and no entry shorter than 2 characters, has pairwise
case-insensitively distinct entries, is a sublist (order preserved) of
the expanded token sequence, and each surviving entry is the first
occurrence of its lowercased form in that sequence. -/
theorem C6_build_terms_invariant (ideas : List String) (keywords : List JVal) :
    (build_terms ideas keywords).length ≤ 20
    ∧ (∀ t ∈ build_terms ideas keywords, lowerStr t ∉ stopwords ∧ 2 ≤ t.length)
    ∧ (build_terms ideas keywords).Pairwise (fun a b => lowerStr a ≠ lowerStr b)
    ∧ List.Sublist (build_terms ideas keywords) (expandedTokens ideas keywords)
    ∧ (∀ u ∈ build_terms ideas keywords,
        ∃ l₁ l₂, expandedTokens ideas keywords = l₁ ++ u :: l₂
          ∧ ∀ v ∈ l₁, lowerStr v ≠ lowerStr u) := by
  have hsub : List.Sublist (build_terms ideas keywords) (expandedTokens ideas keywords) := by
    rw [build_terms]
    exact (List.take_sublist _ _).trans (dedupeByLower_sublist _ [])
  refine ⟨?_, ?_, ?_, hsub, ?_⟩
  · rw [build_terms, List.length_take]
    exact min_le_left _ _
  · intro t ht
    have := expandedTokens_ok ideas keywords t (hsub.subset ht)
    exact ⟨this.2, this.1⟩
  · rw [build_terms]
    exact List.Pairwise.sublist (List.take_sublist _ _) (dedupeByLower_pairwise _ [])
  · intro u hu
    rw [build_terms] at hu
    have hu' : u ∈ dedupeByLower [] (expandedTokens ideas keywords) :=
      (List.take_sublist _ _).subset hu
    exact (dedupeByLower_firstocc _ [] u hu').2

/-- C6 witness: "LLM-powered RAG app" splits, expands and deduplicates
to the expected six terms. -/
theorem C6_build_terms_invariant_witness :
    (build_terms ["LLM-powered RAG app"] []).length ≤ 20
    ∧ build_terms ["LLM-powered RAG app"] [] =
        ["LLM", "large language model", "powered", "RAG",
         "retrieval augmented generation", "app"] :=
  ⟨(C6_build_terms_invariant ["LLM-powered RAG app"] []).1, by decide⟩

/-- C7: scoreText is the sum over non-empty terms of 2.0 for a
lowercase containment hit plus 0.5 per non-overlapping occurrence;
empty text scores 0.0; the running example scores 2.5. -/
theorem C7_score_match_sum (text : String) (terms : List String) :
    scoreMatch "" terms = 0
    ∧ scoreMatch text terms =
        (if text = "" then 0 else (terms.map (termScore (lowerStr text))).sum)
    ∧ scoreMatch "developer tools for RAG" ["rag"] = 5 / 2 := by
  refine ⟨by simp [scoreMatch], scoreMatch_eq_sum text terms, ?_⟩
  rw [scoreMatch_eq_sum, if_neg (by decide), List.map_cons, List.map_nil,
    List.sum_cons, List.sum_nil, termScore, if_neg (by decide), if_pos (by decide)]
  have hc : pyCount (lowerStr "developer tools for RAG").toList
      (lowerStr "rag").toList = 1 := by decide
  rw [hc]
  norm_num

/-- C8: a valid request returns 200 whatever subset of the five
adapters raises; the candidates are the aggregation (boost, dedup,
rank, clip) of exactly the concatenated contributions of the
non-failing adapters, in source order. -/
theorem C8_adapter_failure_isolation (p : Payload)
    (g se hf pwc kg : Except String (List Candidate)) (kws : List JVal) (mr : Int)
    (boosted : List Candidate)
    (hv : validIdeas p.getIdeas = true)
    (hk : pyOr p.getKeywords (.jlist []) = .jlist kws)
    (hm : pyToInt (pyOr p.getMaxResults (.jint DEFAULT_MAX)) = .ok mr)
    (hb : boostStep p.getLocation
        (collectOk g ++ collectOk se ++ collectOk hf ++ collectOk pwc ++ collectOk kg) =
      .ok boosted) :
    suggest_collaborators (some p) ⟨g, se, hf, pwc, kg⟩ =
      .ok ⟨200, .successBody (clip (dedupe_keep_best boosted) mr)
            (build_terms (ideasStrings p.getIdeas) kws) p.getLocation⟩ :=
  handler_success p ⟨g, se, hf, pwc, kg⟩ kws mr boosted hv hk hm hb

/-- C8 witness: with the code-hosting and paper-index adapters raising
and the qa-site adapter contributing one candidate, the response is a
200 carrying exactly that candidate. -/
theorem C8_adapter_failure_isolation_witness :
    suggest_collaborators (some ⟨some (.jlist [.jstr "ai"]), none, none, none⟩)
      ⟨.error "HTTPError", .ok [c8x], .ok [], .error "Timeout", .ok []⟩ =
      .ok ⟨200, .successBody [c8x] ["ai"] .jnull⟩ := by
  have h := C8_adapter_failure_isolation ⟨some (.jlist [.jstr "ai"]), none, none, none⟩
    (.error "HTTPError") (.ok [c8x]) (.ok []) (.error "Timeout") (.ok [])
    [] 10 [c8x] (by decide) rfl rfl rfl
  exact h.trans rfl

/-- C9 counterexample: max_results = -1 is not a positive integer, yet
the request succeeds with 200 — the negative value is used as a Python
slice bound, dropping the lowest-ranked candidate. -/
theorem C9_counterexample_negative_max :
    suggest_collaborators
        (some ⟨some (.jlist [.jstr "ai"]), none, none, some (.jint (-1))⟩)
        ⟨.ok [c9a, c9b], .ok [], .ok [], .ok [], .ok []⟩ =
      .ok ⟨200, .successBody [c9a] ["ai"] .jnull⟩ := rfl

/-- C9 amended: an absent max_results defaults to 10 and the response
carries at most 10 candidates; a provided max_results is coerced with
int() and used unvalidated as the slice bound, never triggering a 4xx
for non-positive integers. -/
theorem C9_amended_default_limit (p : Payload) (o : AdapterOutcomes) (kws : List JVal)
    (boosted : List Candidate)
    (hv : validIdeas p.getIdeas = true)
    (hk : pyOr p.getKeywords (.jlist []) = .jlist kws)
    (habsent : p.max_results = none)
    (hb : boostStep p.getLocation (gatherResults o) = .ok boosted) :
    suggest_collaborators (some p) o =
      .ok ⟨200, .successBody (clip (dedupe_keep_best boosted) 10)
            (build_terms (ideasStrings p.getIdeas) kws) p.getLocation⟩
    ∧ (clip (dedupe_keep_best boosted) 10).length ≤ 10 := by
  constructor
  · refine handler_success p o kws 10 boosted hv hk ?_ hb
    rw [Payload.getMaxResults, habsent]
    rfl
  · have h10 : (10 : Int) = ((10 : Nat) : Int) := rfl
    rw [clip, h10, pySliceTo_ofNat, List.length_take]
    exact min_le_left _ _

/-- C9 amended witness: a valid request without max_results returns
200 with at most 10 candidates. -/
theorem C9_amended_default_limit_witness :
    suggest_collaborators (some ⟨some (.jlist [.jstr "ai"]), none, none, none⟩)
      ⟨.ok [c9a, c9b], .ok [], .ok [], .ok [], .ok []⟩ =
      .ok ⟨200, .successBody (clip (dedupe_keep_best [c9a, c9b]) 10)
            (build_terms (ideasStrings (.jlist [.jstr "ai"])) []) .jnull⟩
    ∧ (clip (dedupe_keep_best [c9a, c9b]) 10).length ≤ 10 :=
  C9_amended_default_limit ⟨some (.jlist [.jstr "ai"]), none, none, none⟩
    ⟨.ok [c9a, c9b], .ok [], .ok [], .ok [], .ok []⟩ [] [c9a, c9b]
    (by decide) rfl rfl rfl

/-- C10: every candidate in the final response equals some candidate
produced by an adapter with at most its score field changed — the
aggregation stage never edits any other field and never invents a
candidate. -/
theorem C10_aggregation_touches_only_score (p : Payload) (o : AdapterOutcomes)
    (kws : List JVal) (mr : Int) (boosted : List Candidate)
    (hv : validIdeas p.getIdeas = true)
    (hk : pyOr p.getKeywords (.jlist []) = .jlist kws)
    (hm : pyToInt (pyOr p.getMaxResults (.jint DEFAULT_MAX)) = .ok mr)
    (hb : boostStep p.getLocation (gatherResults o) = .ok boosted) :
    suggest_collaborators (some p) o =
      .ok ⟨200, .successBody (clip (dedupe_keep_best boosted) mr)
            (build_terms (ideasStrings p.getIdeas) kws) p.getLocation⟩
    ∧ ∀ c ∈ clip (dedupe_keep_best boosted) mr,
        ∃ c₀ ∈ gatherResults o, c = { c₀ with score := c.score } := by
  refine ⟨handler_success p o kws mr boosted hv hk hm hb, ?_⟩
  intro c hc
  exact boosted_from p.getLocation (gatherResults o) boosted hb c
    (dedupe_mem boosted c (mem_of_mem_clip hc))

/-- C10 witness: a location-boosted candidate in the final response
differs from its adapter original only in the score field. -/
theorem C10_aggregation_touches_only_score_witness :
    suggest_collaborators (some p10) o10 =
      .ok ⟨200, .successBody (clip (dedupe_keep_best ([c10a].map (aggBoost "bg"))) 10)
            (build_terms (ideasStrings p10.getIdeas) []) p10.getLocation⟩
    ∧ ∃ c₀ ∈ gatherResults o10,
        aggBoost "bg" c10a = { c₀ with score := (aggBoost "bg" c10a).score } := by
  have h := C10_aggregation_touches_only_score p10 o10 [] 10
    ([c10a].map (aggBoost "bg"))
    (by decide) rfl rfl (boostStep_str_ok "bg" (by decide) _)
  exact ⟨h.1, h.2 (aggBoost "bg" c10a) (List.mem_singleton_self _)⟩
